import Mathlib

/-!
# Verification of the TTM rate-conversion engine

A shallow embedding, in Lean 4, of the rate-resolution and CSV-processing
core of `src/api/main.py`, together with proofs of the specified
properties.

Modelling conventions:
* Calendar dates are `Nat` keys.  The program stores dates as ISO
  `YYYY-MM-DD` strings and compares them with SQL string comparison,
  which for fixed-width ISO dates coincides with chronological order,
  so a totally ordered `Nat` key is a faithful model.
* Python floats (amounts and rates) are modelled as `ℚ`.
* Python strings manipulated by the vendor-extraction code are modelled
  as `List Char`.
* The SQLite `ttm_rates` table (`date TEXT PRIMARY KEY, rate REAL`) is
  modelled as an association list with pairwise-distinct keys.
-/

/-- The rate table: `date TEXT PRIMARY KEY, rate REAL`. -/
abbrev RateTable := List (Nat × ℚ)

/-- `SELECT date, rate FROM ttm_rates WHERE date <= ? ORDER BY date DESC LIMIT 1`:
the entry with the greatest date `≤ d`, if any. -/
def bestPast (d : Nat) : RateTable → Option (Nat × ℚ)
  | [] => none
  | e :: rest =>
    if e.1 ≤ d then
      match bestPast d rest with
      | none => some e
      | some b => if b.1 < e.1 then some e else some b
    else bestPast d rest

/-- `SELECT date, rate FROM ttm_rates WHERE date >= ? ORDER BY date ASC LIMIT 1`:
the entry with the smallest date `≥ d`, if any. -/
def bestFuture (d : Nat) : RateTable → Option (Nat × ℚ)
  | [] => none
  | e :: rest =>
    if d ≤ e.1 then
      match bestFuture d rest with
      | none => some e
      | some b => if e.1 < b.1 then some e else some b
    else bestFuture d rest

/-- Embedding of `get_ttm_rate` (src/api/main.py lines 262-324), restricted to
an already-normalized date key: exact match first, then closest past date,
then closest future date; `none` models the 404 `HTTPException`
(`NoRateAvailable`). -/
def get_ttm_rate (table : RateTable) (d : Nat) : Option ℚ :=
  match table.find? (fun e => e.1 == d) with
  | some e => some e.2
  | none =>
    match bestPast d table with
    | some e => some e.2
    | none =>
      match bestFuture d table with
      | some e => some e.2
      | none => none

example : get_ttm_rate [(3, 140), (5, 150)] 5 = some 150 := by decide
example : get_ttm_rate [(3, 140), (5, 150)] 4 = some 140 := by decide
example : get_ttm_rate [(3, 140), (5, 150)] 2 = some 140 := by decide
example : get_ttm_rate [(3, 140), (5, 150)] 7 = some 150 := by decide
example : get_ttm_rate [(5, 150), (3, 140)] 2 = some 140 := by decide
example : get_ttm_rate [] 2 = none := by decide

/-! ## Python string primitives used by the vendor extraction -/

/-- Python substring test `p in s` over character lists. -/
def containsSub (p : List Char) : List Char → Bool
  | [] => p.isPrefixOf []
  | c :: rest => p.isPrefixOf (c :: rest) || containsSub p rest

/-- Python `s.replace(p, r)`: scan left to right, replacing each
non-overlapping occurrence of `p` (skipping past it without rescanning the
replacement), for a nonempty pattern `p`. -/
def replaceAll (p r : List Char) : List Char → List Char
  | [] => []
  | c :: rest =>
    if p ≠ [] ∧ p.isPrefixOf (c :: rest) = true then
      r ++ replaceAll p r (rest.drop (p.length - 1))
    else
      c :: replaceAll p r rest
termination_by s => s.length
decreasing_by
  all_goals simp [List.length_drop]
  all_goals omega

/-- Python `s.strip()`: drop leading and trailing whitespace. -/
def trim (s : List Char) : List Char :=
  ((s.dropWhile Char.isWhitespace).reverse.dropWhile Char.isWhitespace).reverse

def unknownVendor : List Char := "Unknown".toList

def paymentFrom : List Char := "Payment from ".toList

/-- Vendor extraction (src/api/main.py lines 393-397): default label
Unknown, replaced by the description with all occurrences of
de-duplicated marker text removed and stripped when the marker occurs. -/
def vendorOf (descr : Option (List Char)) : List Char :=
  let d := descr.getD []
  if containsSub paymentFrom d then trim (replaceAll paymentFrom [] d)
  else unknownVendor

/-! ## The CSV-processing core -/

/-- A parsed calendar date `(year, month, day)`. -/
structure Date where
  y : Nat
  m : Nat
  d : Nat
deriving DecidableEq, Repr

/-- The `Nat` key an ISO `YYYY-MM-DD` string compares as. -/
def Date.key (dt : Date) : Nat := dt.y * 10000 + dt.m * 100 + dt.d

/-- The year-month pair a transaction is bucketed under. -/
def Date.month (dt : Date) : Nat × Nat := (dt.y, dt.m)

/-- One CSV row as it reaches the processing loop.  `date`/`amount` are
`none` exactly when the Python parse (`pd.to_datetime` with format
MM-DD-YYYY, resp. `float` after stripping commas, dollar signs and
spaces) raises; `description` is `none` when the Description column is
absent. -/
structure Row where
  date : Option Date
  amount : Option ℚ
  description : Option (List Char)
deriving DecidableEq

/-- The per-row failure modes of the processing loop. -/
inductive RowErr where
  | invalidDate
  | invalidAmount
  | noRate
deriving DecidableEq, Repr

/-- One entry of the `transactions` output list. -/
structure Txn where
  date : Date
  amount_usd : ℚ
  ttm_rate : ℚ
  amount_jpy : ℚ
  month : Nat × Nat
  vendor : List Char
deriving DecidableEq, Repr

/-- The body of the per-row loop of `process_csv`
(src/api/main.py lines 374-426): parse date, parse amount, extract
vendor, resolve the TTM rate, compute `amount_jpy = amount_usd * ttm_rate`. -/
def processRow (table : RateTable) (row : Row) : Except RowErr Txn :=
  match row.date with
  | none => .error .invalidDate
  | some dt =>
    match row.amount with
    | none => .error .invalidAmount
    | some amt =>
      let vendor := vendorOf row.description
      match get_ttm_rate table dt.key with
      | none => .error .noRate
      | some rate =>
        .ok { date := dt, amount_usd := amt, ttm_rate := rate,
              amount_jpy := amt * rate, month := dt.month, vendor := vendor }

/-- The processing loop with its running row index: a failing row appends
`(index + 1, error)` to the error list and the loop continues with the
next row; a successful row appends its transaction. -/
def processRowsAux (table : RateTable) : Nat → List Row → List Txn × List (Nat × RowErr)
  | _, [] => ([], [])
  | i, r :: rest =>
    let res := processRowsAux table (i + 1) rest
    match processRow table r with
    | .ok t => (t :: res.1, res.2)
    | .error e => (res.1, (i + 1, e) :: res.2)

/-- The full processing loop (`transactions` and `errors` lists of
src/api/main.py lines 372-426). -/
def processRows (table : RateTable) (rows : List Row) : List Txn × List (Nat × RowErr) :=
  processRowsAux table 0 rows

/-- Per-vendor monthly sub-aggregate `{usd, jpy, count}`. -/
structure VendorAgg where
  usd : ℚ
  jpy : ℚ
  count : Nat
deriving DecidableEq, Repr

/-- One monthly bucket of the `monthly` output. -/
structure MonthAgg where
  month : Nat × Nat
  total_usd : ℚ
  total_jpy : ℚ
  transaction_count : Nat
  vendor_transactions : List (List Char × VendorAgg)
deriving DecidableEq, Repr

/-- Insert-or-update of the per-vendor sub-dictionary, preserving
insertion order as a Python dict does. -/
def updateVendor (v : List Char) (t : Txn) :
    List (List Char × VendorAgg) → List (List Char × VendorAgg)
  | [] => [(v, ⟨t.amount_usd, t.amount_jpy, 1⟩)]
  | (k, a) :: rest =>
    if k = v then (k, ⟨a.usd + t.amount_usd, a.jpy + t.amount_jpy, a.count + 1⟩) :: rest
    else (k, a) :: updateVendor v t rest

/-- Insert-or-update of the `monthly_data` dictionary
(src/api/main.py lines 440-467), preserving insertion order. -/
def updateMonth (t : Txn) : List MonthAgg → List MonthAgg
  | [] => [⟨t.month, t.amount_usd, t.amount_jpy, 1, [(t.vendor, ⟨t.amount_usd, t.amount_jpy, 1⟩)]⟩]
  | m :: rest =>
    if m.month = t.month then
      { m with total_usd := m.total_usd + t.amount_usd,
               total_jpy := m.total_jpy + t.amount_jpy,
               transaction_count := m.transaction_count + 1,
               vendor_transactions := updateVendor t.vendor t m.vendor_transactions } :: rest
    else m :: updateMonth t rest

/-- Monthly aggregation: fold the transactions into `monthly_data` and read
off `list(monthly_data.values())`. -/
def aggregateMonthly (txns : List Txn) : List MonthAgg :=
  txns.foldl (fun acc t => updateMonth t acc) []

/-- The overall summary object. -/
structure Summary where
  totalTransactions : Nat
  totalUsd : ℚ
  totalJpy : ℚ
  averageTtmRate : ℚ
deriving DecidableEq, Repr

/-- Summary computation (src/api/main.py lines 471-480):
`averageTtmRate = total_jpy / total_usd if total_usd else 0`. -/
def mkSummary (txns : List Txn) : Summary :=
  let total_usd := (txns.map (fun t => t.amount_usd)).sum
  let total_jpy := (txns.map (fun t => t.amount_jpy)).sum
  { totalTransactions := txns.length
    totalUsd := total_usd
    totalJpy := total_jpy
    averageTtmRate := if total_usd ≠ 0 then total_jpy / total_usd else 0 }

/-- The successful response payload `{transactions, monthly, summary}`. -/
structure ProcessResult where
  transactions : List Txn
  monthly : List MonthAgg
  summary : Summary
deriving DecidableEq, Repr

/-- Embedding of the `process_csv` endpoint body after CSV decoding and
column validation (src/api/main.py lines 371-486): run the row loop; if
any error was collected, raise (return) the error list and nothing else;
otherwise aggregate and summarize. -/
def process_csv (table : RateTable) (rows : List Row) :
    Except (List (Nat × RowErr)) ProcessResult :=
  if (processRows table rows).2.isEmpty then
    .ok { transactions := (processRows table rows).1,
          monthly := aggregateMonthly (processRows table rows).1,
          summary := mkSummary (processRows table rows).1 }
  else
    .error (processRows table rows).2

/-! ## Spec-modelled normalizer validation and reconciliation engine

The spec (section 2) states the core spans three near-duplicate source
revisions and section 7 identifies the revision present under src/ as the
earlier one; the credit/debit validation and the reconciliation engine of
sections 4.2-4.3 do not appear in src/api/main.py, so they are modelled
here from the spec text. -/

/-- Modelled from the spec: the `direction: credit|debit` field of a
Movement (section 3), absent from the src revision. -/
inductive Direction where
  | credit
  | debit
deriving DecidableEq, Repr

/-- Modelled from the spec: the ExchangeProfit record attached
retroactively to a credit Movement (section 3), absent from the src
revision. -/
structure ExchangeProfit where
  next_debit_date : Nat
  next_debit_time : Nat
  next_debit_ttm : ℚ
  profit_jpy : ℚ
deriving DecidableEq, Repr

/-- Modelled from the spec: a validated Movement (section 3), as consumed
by the reconciliation engine; absent from the src revision. -/
structure Movement where
  date : Nat
  time : Nat
  direction : Direction
  amount_usd : ℚ
  resolved_rate : ℚ
  amount_jpy : ℚ
  exchange_profit : Option ExchangeProfit
deriving DecidableEq, Repr

/-- Modelled from the spec: chronological (date, time) order on
Movements, the precondition of the reconciliation engine (section 4.3). -/
def movLE (a b : Movement) : Prop :=
  a.date < b.date ∨ (a.date = b.date ∧ a.time ≤ b.time)

instance (a b : Movement) : Decidable (movLE a b) :=
  inferInstanceAs (Decidable (a.date < b.date ∨ (a.date = b.date ∧ a.time ≤ b.time)))

/-- Modelled from the spec: a batch sorted by (date, time) ascending
(section 4.3). -/
def SortedBatch (ms : List Movement) : Prop := List.Chain' movLE ms

instance (ms : List Movement) : Decidable (SortedBatch ms) :=
  inferInstanceAs (Decidable (List.Chain' movLE ms))

/-- Modelled from the spec: a pending credit is a credit Movement not yet
carrying an ExchangeProfit (sections 3 and 4.3). -/
def isPendingCredit (m : Movement) : Bool :=
  m.direction == .credit && m.exchange_profit == none

/-- Modelled from the spec: settlement of one queued credit against a
debit `d` (section 4.3): attach an ExchangeProfit referencing the debit's
date/time/rate with `profit_jpy = amount_usd * (debit_rate - credit_rate)`
to a still-unsettled credit; leave every other Movement unchanged. -/
def settle (d : Movement) (m : Movement) : Movement :=
  if m.direction = .credit ∧ m.exchange_profit = none then
    { m with
      exchange_profit := some ⟨d.date, d.time, d.resolved_rate,
        m.amount_usd * (d.resolved_rate - m.resolved_rate)⟩ }
  else m

/-- Modelled from the spec: one transition of the reconciliation engine
(section 4.3).  State = (output list, pending-credit queue).  A credit is
appended to both; a debit settles every queued credit in the output,
appends itself, and clears the entire queue. -/
def reconStep (s : List Movement × List Movement) (m : Movement) :
    List Movement × List Movement :=
  match m.direction with
  | .credit => (s.1 ++ [m], s.2 ++ [m])
  | .debit => (s.1.map (settle m) ++ [m], [])

/-- Modelled from the spec: the reconciliation engine run over a sorted
batch, starting from an empty output and an empty queue (section 4.3). -/
def reconcile (ms : List Movement) : List Movement × List Movement :=
  ms.foldl reconStep ([], [])

example :
    reconcile [⟨20240101, 0, .credit, 100, 140, 14000, none⟩,
               ⟨20240102, 0, .credit, 50, 141, 7050, none⟩,
               ⟨20240105, 0, .debit, 30, 142, 4260, none⟩] =
      ([⟨20240101, 0, .credit, 100, 140, 14000, some ⟨20240105, 0, 142, 200⟩⟩,
        ⟨20240102, 0, .credit, 50, 141, 7050, some ⟨20240105, 0, 142, 50⟩⟩,
        ⟨20240105, 0, .debit, 30, 142, 4260, none⟩], []) := by
  norm_num [reconcile, reconStep, settle]

instance {ε α : Type} [DecidableEq ε] [DecidableEq α] (x y : Except ε α) :
    Decidable (x = y) :=
  match x, y with
  | .error a, .error b =>
    if h : a = b then isTrue (congrArg Except.error h)
    else isFalse (fun he => h (Except.error.inj he))
  | .error _, .ok _ => isFalse (fun he => Except.noConfusion he)
  | .ok _, .error _ => isFalse (fun he => Except.noConfusion he)
  | .ok a, .ok b =>
    if h : a = b then isTrue (congrArg Except.ok h)
    else isFalse (fun he => h (Except.ok.inj he))

/-- Modelled from the spec: the error raised by amount validation
(sections 4.2 and 7), absent from the src revision. -/
inductive VErr where
  | ambiguousTransaction
deriving DecidableEq, Repr

/-- Modelled from the spec: a raw ledger row as seen by the
TransactionNormalizer (section 4.2), with both amount columns. -/
structure RawMov where
  date : Nat
  time : Nat
  credit : ℚ
  debit : ℚ
deriving DecidableEq, Repr

/-- Modelled from the spec: amount validation of the
TransactionNormalizer (section 4.2): exactly one of credit/debit must be
a positive amount; zero-or-both-nonzero fails with AmbiguousTransaction. -/
def validateAmounts (credit debit : ℚ) : Except VErr (Direction × ℚ) :=
  if credit ≠ 0 ∧ debit ≠ 0 then .error .ambiguousTransaction
  else if 0 < credit then .ok (.credit, credit)
  else if 0 < debit then .ok (.debit, debit)
  else .error .ambiguousTransaction

/-- Modelled from the spec: fail-fast normalization of a batch
(section 7): the first invalid row aborts the whole batch. -/
def normalizeBatch : List RawMov → Except VErr (List (Direction × ℚ))
  | [] => .ok []
  | r :: rest =>
    match validateAmounts r.credit r.debit with
    | .error e => .error e
    | .ok v =>
      match normalizeBatch rest with
      | .error e => .error e
      | .ok vs => .ok (v :: vs)

example : validateAmounts 5 3 = .error .ambiguousTransaction := by decide
example : validateAmounts 0 0 = .error .ambiguousTransaction := by decide
example : validateAmounts 5 0 = .ok (.credit, 5) := by decide
example : validateAmounts 0 7 = .ok (.debit, 7) := by decide

/-! ## Lemmas about the rate lookup -/

theorem bestPast_spec (d : Nat) (l : RateTable) :
    (bestPast d l = none ∧ ∀ e ∈ l, d < e.1) ∨
    (∃ b, bestPast d l = some b ∧ b ∈ l ∧ b.1 ≤ d ∧
      ∀ e ∈ l, e.1 ≤ d → e.1 ≤ b.1) := by
  induction l with
  | nil => left; exact ⟨rfl, by simp⟩
  | cons e rest ih =>
    by_cases h : e.1 ≤ d
    · right
      rcases ih with ⟨hn, hall⟩ | ⟨b, hb, hmem, hle, hmax⟩
      · refine ⟨e, ?_, List.mem_cons_self e rest, h, ?_⟩
        · simp [bestPast, h, hn]
        · intro x hx _
          rcases List.mem_cons.mp hx with rfl | hx'
          · exact le_refl _
          · exact absurd (hall x hx') (by omega)
      · by_cases hlt : b.1 < e.1
        · refine ⟨e, ?_, List.mem_cons_self e rest, h, ?_⟩
          · simp [bestPast, h, hb, hlt]
          · intro x hx hxd
            rcases List.mem_cons.mp hx with rfl | hx'
            · exact le_refl _
            · exact le_trans (hmax x hx' hxd) (le_of_lt hlt)
        · refine ⟨b, ?_, List.mem_cons_of_mem e hmem, hle, ?_⟩
          · simp [bestPast, h, hb, hlt]
          · intro x hx hxd
            rcases List.mem_cons.mp hx with rfl | hx'
            · omega
            · exact hmax x hx' hxd
    · rcases ih with ⟨hn, hall⟩ | ⟨b, hb, hmem, hle, hmax⟩
      · left
        refine ⟨by simp [bestPast, h, hn], ?_⟩
        intro x hx
        rcases List.mem_cons.mp hx with rfl | hx'
        · omega
        · exact hall x hx'
      · right
        refine ⟨b, by simp [bestPast, h, hb], List.mem_cons_of_mem e hmem, hle, ?_⟩
        intro x hx hxd
        rcases List.mem_cons.mp hx with rfl | hx'
        · omega
        · exact hmax x hx' hxd

theorem bestFuture_spec (d : Nat) (l : RateTable) :
    (bestFuture d l = none ∧ ∀ e ∈ l, e.1 < d) ∨
    (∃ b, bestFuture d l = some b ∧ b ∈ l ∧ d ≤ b.1 ∧
      ∀ e ∈ l, d ≤ e.1 → b.1 ≤ e.1) := by
  induction l with
  | nil => left; exact ⟨rfl, by simp⟩
  | cons e rest ih =>
    by_cases h : d ≤ e.1
    · right
      rcases ih with ⟨hn, hall⟩ | ⟨b, hb, hmem, hle, hmin⟩
      · refine ⟨e, ?_, List.mem_cons_self e rest, h, ?_⟩
        · simp [bestFuture, h, hn]
        · intro x hx _
          rcases List.mem_cons.mp hx with rfl | hx'
          · exact le_refl _
          · exact absurd (hall x hx') (by omega)
      · by_cases hlt : e.1 < b.1
        · refine ⟨e, ?_, List.mem_cons_self e rest, h, ?_⟩
          · simp [bestFuture, h, hb, hlt]
          · intro x hx hxd
            rcases List.mem_cons.mp hx with rfl | hx'
            · exact le_refl _
            · exact le_trans (le_of_lt hlt) (hmin x hx' hxd)
        · refine ⟨b, ?_, List.mem_cons_of_mem e hmem, hle, ?_⟩
          · simp [bestFuture, h, hb, hlt]
          · intro x hx hxd
            rcases List.mem_cons.mp hx with rfl | hx'
            · omega
            · exact hmin x hx' hxd
    · rcases ih with ⟨hn, hall⟩ | ⟨b, hb, hmem, hle, hmin⟩
      · left
        refine ⟨by simp [bestFuture, h, hn], ?_⟩
        intro x hx
        rcases List.mem_cons.mp hx with rfl | hx'
        · omega
        · exact hall x hx'
      · right
        refine ⟨b, by simp [bestFuture, h, hb], List.mem_cons_of_mem e hmem, hle, ?_⟩
        intro x hx hxd
        rcases List.mem_cons.mp hx with rfl | hx'
        · omega
        · exact hmin x hx' hxd

theorem entry_eq_of_nodup_keys {l : RateTable} (h : (l.map Prod.fst).Nodup)
    {a b : Nat × ℚ} (ha : a ∈ l) (hb : b ∈ l) (hk : a.1 = b.1) : a = b := by
  induction l with
  | nil => cases ha
  | cons e rest ih =>
    rw [List.map_cons, List.nodup_cons] at h
    rcases List.mem_cons.mp ha with rfl | ha' <;>
      rcases List.mem_cons.mp hb with rfl | hb'
    · rfl
    · exact absurd (hk ▸ List.mem_map_of_mem Prod.fst hb') h.1
    · exact absurd (hk ▸ List.mem_map_of_mem Prod.fst ha') h.1
    · exact ih h.2 ha' hb'

theorem find?_key_eq_none {table : RateTable} {d : Nat}
    (hkey : ∀ r : ℚ, (d, r) ∉ table) :
    table.find? (fun e => e.1 == d) = none := by
  apply List.find?_eq_none.mpr
  intro x hx hxd
  obtain ⟨x1, x2⟩ := x
  have : x1 = d := by simpa using hxd
  subst this
  exact hkey x2 hx

/-- C1: for every rate table with distinct dates and every query date:
an exact-date entry's rate is returned when present; otherwise the rate
of the greatest stored date at or before the query; otherwise the rate of
the smallest stored date at or after the query; and the lookup fails
(`NoRateAvailable`) exactly when the table is empty. -/
theorem get_ttm_rate_spec (table : RateTable) (d : Nat)
    (hnd : (table.map Prod.fst).Nodup) :
    (get_ttm_rate table d = none ↔ table = []) ∧
    (∀ r : ℚ, (d, r) ∈ table → get_ttm_rate table d = some r) ∧
    ((∀ r : ℚ, (d, r) ∉ table) → (∃ e ∈ table, e.1 ≤ d) →
      ∃ b ∈ table, b.1 ≤ d ∧ (∀ e ∈ table, e.1 ≤ d → e.1 ≤ b.1) ∧
        get_ttm_rate table d = some b.2) ∧
    ((∀ e ∈ table, d < e.1) → table ≠ [] →
      ∃ b ∈ table, d ≤ b.1 ∧ (∀ e ∈ table, b.1 ≤ e.1) ∧
        get_ttm_rate table d = some b.2) := by
  refine ⟨?_, ?_, ?_, ?_⟩
  · constructor
    · intro hnone
      by_contra hne
      cases htab : table with
      | nil => exact hne htab
      | cons e0 rest =>
        subst htab
        unfold get_ttm_rate at hnone
        cases hf : (e0 :: rest).find? (fun e => e.1 == d) with
        | some e => simp [hf] at hnone
        | none =>
          simp only [hf] at hnone
          rcases bestPast_spec d (e0 :: rest) with ⟨hbp, hall⟩ | ⟨b, hb, _⟩
          · simp only [hbp] at hnone
            rcases bestFuture_spec d (e0 :: rest) with ⟨hbf, hall2⟩ | ⟨b, hb2, _⟩
            · have h1 := hall e0 (List.mem_cons_self e0 rest)
              have h2 := hall2 e0 (List.mem_cons_self e0 rest)
              omega
            · simp [hb2] at hnone
          · simp [hb] at hnone
    · intro h
      subst h
      rfl
  · intro r hr
    have hfind : ∃ e, table.find? (fun e => e.1 == d) = some e := by
      cases hf : table.find? (fun e => e.1 == d) with
      | some e => exact ⟨e, rfl⟩
      | none =>
        have := List.find?_eq_none.mp hf (d, r) hr
        simp at this
    obtain ⟨e, hf⟩ := hfind
    have hpe := List.find?_some hf
    have hme : e ∈ table := List.mem_of_find?_eq_some hf
    have hed : e = (d, r) :=
      entry_eq_of_nodup_keys hnd hme hr (by simpa using hpe)
    unfold get_ttm_rate
    rw [hf, hed]
  · intro hkey hex
    have hf := find?_key_eq_none hkey
    rcases bestPast_spec d table with ⟨hbp, hall⟩ | ⟨b, hb, hmem, hle, hmax⟩
    · obtain ⟨e, he, hed⟩ := hex
      exact absurd (hall e he) (by omega)
    · refine ⟨b, hmem, hle, hmax, ?_⟩
      unfold get_ttm_rate
      rw [hf, hb]
  · intro hall hne
    have hf : table.find? (fun e => e.1 == d) = none := by
      apply find?_key_eq_none
      intro r hr
      have := hall (d, r) hr
      omega
    have hbp : bestPast d table = none := by
      rcases bestPast_spec d table with ⟨h, _⟩ | ⟨b, _, hmem, hle, _⟩
      · exact h
      · exact absurd (hall b hmem) (by omega)
    rcases bestFuture_spec d table with ⟨hbf, hlt⟩ | ⟨b, hb, hmem, hle, hmin⟩
    · cases htab : table with
      | nil => exact absurd htab hne
      | cons e0 rest =>
        subst htab
        have h1 := hall e0 (List.mem_cons_self e0 rest)
        have h2 := hlt e0 (List.mem_cons_self e0 rest)
        omega
    · refine ⟨b, hmem, hle, fun e he => hmin e he (le_of_lt (hall e he)), ?_⟩
      unfold get_ttm_rate
      rw [hf, hbp, hb]

theorem get_ttm_rate_spec_witness :
    get_ttm_rate [(3, 140), (5, 150)] 5 = some 150 :=
  (get_ttm_rate_spec [(3, 140), (5, 150)] 5 (by decide)).2.1 150 (by decide)

/-! ## Lemmas about the string primitives and the vendor rule -/

theorem isPrefixOf_eq_true_iff (p s : List Char) :
    p.isPrefixOf s = true ↔ ∃ t, s = p ++ t := by
  induction p generalizing s with
  | nil => simp [List.isPrefixOf]
  | cons a p' ih =>
    cases s with
    | nil => simp [List.isPrefixOf]
    | cons b s' =>
      simp only [List.isPrefixOf, Bool.and_eq_true, beq_iff_eq, ih,
        List.cons_append, List.cons.injEq]
      constructor
      · rintro ⟨rfl, t, rfl⟩
        exact ⟨t, rfl, rfl⟩
      · rintro ⟨t, rfl, rfl⟩
        exact ⟨rfl, t, rfl⟩

theorem containsSub_iff (p s : List Char) :
    containsSub p s = true ↔ ∃ l r, s = l ++ p ++ r := by
  induction s with
  | nil =>
    simp only [containsSub, isPrefixOf_eq_true_iff]
    constructor
    · rintro ⟨t, ht⟩
      exact ⟨[], t, by simp [← ht]⟩
    · rintro ⟨l, r, hr⟩
      rcases List.append_eq_nil.mp (List.append_eq_nil.mp hr.symm).1 with ⟨rfl, rfl⟩
      exact ⟨r, by simpa using hr⟩
  | cons c s' ih =>
    simp only [containsSub, Bool.or_eq_true, isPrefixOf_eq_true_iff, ih]
    constructor
    · rintro (⟨t, ht⟩ | ⟨l, r, rfl⟩)
      · exact ⟨[], t, by simp [ht]⟩
      · exact ⟨c :: l, r, by simp⟩
    · rintro ⟨l, r, hr⟩
      cases l with
      | nil => exact Or.inl ⟨r, by simpa using hr⟩
      | cons x l' =>
        rw [List.cons_append, List.cons_append, List.cons.injEq] at hr
        exact Or.inr ⟨l', r, by simp [hr.2]⟩

/-- C10: the vendor label rule of src/api/main.py lines 393-397: a
successfully processed row carries `vendorOf` of its description; an
absent description, or one not containing the text Payment-from marker,
yields the Unknown label; otherwise the vendor is the description with
every occurrence of the marker removed (Python `str.replace` semantics)
and surrounding whitespace stripped. -/
theorem vendor_label_rule :
    (∀ (table : RateTable) (row : Row) (t : Txn),
      processRow table row = .ok t → t.vendor = vendorOf row.description) ∧
    vendorOf none = unknownVendor ∧
    (∀ s : List Char, (¬ ∃ l r, s = l ++ paymentFrom ++ r) →
      vendorOf (some s) = unknownVendor) ∧
    (∀ s : List Char, (∃ l r, s = l ++ paymentFrom ++ r) →
      vendorOf (some s) = trim (replaceAll paymentFrom [] s)) := by
  refine ⟨?_, by decide, ?_, ?_⟩
  · intro table row t h
    unfold processRow at h
    split at h
    · simp at h
    · split at h
      · simp at h
      · split at h
        · simp at h
        · rw [← Except.ok.inj h]
  · intro s hs
    have hc : containsSub paymentFrom s = false := by
      rw [← Bool.not_eq_true, containsSub_iff]
      exact hs
    simp [vendorOf, hc]
  · intro s hs
    have hc : containsSub paymentFrom s = true := (containsSub_iff _ _).mpr hs
    simp [vendorOf, hc]

theorem vendor_label_rule_witness :
    vendorOf (some "Payment from Acme".toList) =
      trim (replaceAll paymentFrom [] "Payment from Acme".toList) :=
  vendor_label_rule.2.2.2 "Payment from Acme".toList
    ⟨[], "Acme".toList, by decide⟩

/-! ## Lemmas about the processing loop -/

theorem processRowsAux_errors_nil (table : RateTable) (i : Nat) (rows : List Row) :
    (processRowsAux table i rows).2 = [] ↔
      ∀ r ∈ rows, (processRow table r).isOk = true := by
  induction rows generalizing i with
  | nil => simp [processRowsAux]
  | cons r rest ih =>
    simp only [processRowsAux]
    cases hp : processRow table r with
    | ok t => simp [hp, ih (i + 1), Except.isOk, Except.toBool]
    | error e => simp [hp, Except.isOk, Except.toBool]

theorem processRowsAux_txns (table : RateTable) (i : Nat) (rows : List Row) :
    (processRowsAux table i rows).1 =
      rows.filterMap (fun r => (processRow table r).toOption) := by
  induction rows generalizing i with
  | nil => simp [processRowsAux]
  | cons r rest ih =>
    simp only [processRowsAux, List.filterMap_cons]
    cases hp : processRow table r with
    | ok t => simp [hp, ih (i + 1), Except.toOption]
    | error e => simp [hp, ih (i + 1), Except.toOption]

theorem process_csv_ok_inv {table : RateTable} {rows : List Row} {res : ProcessResult}
    (h : process_csv table rows = .ok res) :
    (processRows table rows).2 = [] ∧
    res = ⟨(processRows table rows).1, aggregateMonthly (processRows table rows).1,
           mkSummary (processRows table rows).1⟩ := by
  unfold process_csv at h
  by_cases he : (processRows table rows).2.isEmpty
  · rw [if_pos he] at h
    exact ⟨List.isEmpty_iff.mp he, (Except.ok.inj h).symm⟩
  · rw [if_neg he] at h
    exact absurd h (by simp)

theorem process_csv_error_of_errors {table : RateTable} {rows : List Row}
    (h : (processRows table rows).2 ≠ []) :
    process_csv table rows = .error (processRows table rows).2 := by
  unfold process_csv
  rw [if_neg]
  simpa [List.isEmpty_iff] using h

theorem processRow_ok_fields {table : RateTable} {row : Row} {t : Txn}
    (h : processRow table row = .ok t) :
    t.amount_jpy = t.amount_usd * t.ttm_rate ∧
    get_ttm_rate table t.date.key = some t.ttm_rate ∧
    row.amount = some t.amount_usd ∧ row.date = some t.date ∧
    t.month = t.date.month := by
  unfold processRow at h
  split at h
  · simp at h
  · split at h
    · simp at h
    · split at h
      · simp at h
      · rw [← Except.ok.inj h]
        refine ⟨rfl, ?_, ?_, ?_, rfl⟩ <;> assumption

/-! ## Lemmas about the monthly aggregation -/

theorem updateMonth_sum_usd (t : Txn) (acc : List MonthAgg) :
    ((updateMonth t acc).map (fun m => m.total_usd)).sum =
      ((acc.map (fun m => m.total_usd)).sum) + t.amount_usd := by
  induction acc with
  | nil => simp [updateMonth]
  | cons m rest ih =>
    by_cases h : m.month = t.month
    · simp [updateMonth, h]
      ring
    · simp [updateMonth, h, ih]
      ring

theorem updateMonth_sum_jpy (t : Txn) (acc : List MonthAgg) :
    ((updateMonth t acc).map (fun m => m.total_jpy)).sum =
      ((acc.map (fun m => m.total_jpy)).sum) + t.amount_jpy := by
  induction acc with
  | nil => simp [updateMonth]
  | cons m rest ih =>
    by_cases h : m.month = t.month
    · simp [updateMonth, h]
      ring
    · simp [updateMonth, h, ih]
      ring

theorem aggregate_sum_usd (txns : List Txn) :
    (((aggregateMonthly txns).map (fun m => m.total_usd)).sum) =
      ((txns.map (fun t => t.amount_usd)).sum) := by
  suffices h : ∀ acc : List MonthAgg,
      (((txns.foldl (fun acc t => updateMonth t acc) acc).map
        (fun m => m.total_usd)).sum) =
      ((acc.map (fun m => m.total_usd)).sum) +
        ((txns.map (fun t => t.amount_usd)).sum) by
    simpa [aggregateMonthly] using h []
  induction txns with
  | nil => simp
  | cons t rest ih =>
    intro acc
    simp only [List.foldl_cons, List.map_cons, List.sum_cons, ih,
      updateMonth_sum_usd]
    ring

theorem aggregate_sum_jpy (txns : List Txn) :
    (((aggregateMonthly txns).map (fun m => m.total_jpy)).sum) =
      ((txns.map (fun t => t.amount_jpy)).sum) := by
  suffices h : ∀ acc : List MonthAgg,
      (((txns.foldl (fun acc t => updateMonth t acc) acc).map
        (fun m => m.total_jpy)).sum) =
      ((acc.map (fun m => m.total_jpy)).sum) +
        ((txns.map (fun t => t.amount_jpy)).sum) by
    simpa [aggregateMonthly] using h []
  induction txns with
  | nil => simp
  | cons t rest ih =>
    intro acc
    simp only [List.foldl_cons, List.map_cons, List.sum_cons, ih,
      updateMonth_sum_jpy]
    ring

/-! ## Claim theorems about the CSV-processing core -/

/-- C4 (amended): for every successfully normalized movement the code sets
`amount_jpy` to the exact product `amount_usd * ttm_rate`
(src/api/main.py line 409); no rounding is applied and the value need not
be an integer. -/
theorem amount_jpy_exact_product (table : RateTable) (row : Row) (t : Txn)
    (h : processRow table row = .ok t) :
    t.amount_jpy = t.amount_usd * t.ttm_rate :=
  (processRow_ok_fields h).1

theorem amount_jpy_exact_product_witness :
    (⟨⟨0, 0, 11⟩, 1/2, 141, 1/2 * 141, (0, 0), unknownVendor⟩ : Txn).amount_jpy =
      (⟨⟨0, 0, 11⟩, 1/2, 141, 1/2 * 141, (0, 0), unknownVendor⟩ : Txn).amount_usd *
        (⟨⟨0, 0, 11⟩, 1/2, 141, 1/2 * 141, (0, 0), unknownVendor⟩ : Txn).ttm_rate :=
  amount_jpy_exact_product [(11, 141)] ⟨some ⟨0, 0, 11⟩, some (1/2), none⟩ _ rfl

/-- C4 is false on the code: a credit of half a dollar at rate 141 is
normalized with `amount_jpy = 70.5`, which differs from
`round(amount_usd * resolved_rate) = 71` and is not an integer (the code
at src/api/main.py line 409 never rounds). -/
theorem amount_jpy_not_rounded_cex :
    processRow [(11, 141)] ⟨some ⟨0, 0, 11⟩, some (1/2), none⟩ =
      .ok ⟨⟨0, 0, 11⟩, 1/2, 141, 1/2 * 141, (0, 0), unknownVendor⟩ ∧
    (1/2 : ℚ) * 141 ≠ ((round ((1/2 : ℚ) * 141) : ℤ) : ℚ) ∧
    ¬ ∃ n : ℤ, (1/2 : ℚ) * 141 = (n : ℚ) := by
  have hni : ¬ ∃ n : ℤ, (1/2 : ℚ) * 141 = (n : ℚ) := by
    rintro ⟨n, hn⟩
    have h2 : (141 : ℚ) = 2 * (n : ℚ) := by linarith
    have h3 : (141 : ℤ) = 2 * n := by exact_mod_cast h2
    omega
  exact ⟨rfl, fun he => hni ⟨round ((1/2 : ℚ) * 141), he⟩, hni⟩

/-- C5 (amended): for every successful batch, `averageTtmRate` is the
amount-weighted average `total_jpy / total_usd` (src/api/main.py line
479), guarded to `0` when `total_usd = 0`; with zero transactions the
guard yields `0`. -/
theorem average_rate_weighted (table : RateTable) (rows : List Row) (res : ProcessResult)
    (h : process_csv table rows = .ok res) :
    res.summary.averageTtmRate =
      (if ((res.transactions.map (fun t => t.amount_usd)).sum) ≠ 0
       then ((res.transactions.map (fun t => t.amount_jpy)).sum) /
            ((res.transactions.map (fun t => t.amount_usd)).sum)
       else 0) ∧
    (res.transactions = [] → res.summary.averageTtmRate = 0) := by
  obtain ⟨-, rfl⟩ := process_csv_ok_inv h
  constructor
  · rfl
  · intro h0
    have h1 : (processRows table rows).1 = [] := h0
    show (mkSummary (processRows table rows).1).averageTtmRate = 0
    rw [h1]
    simp [mkSummary]

theorem average_rate_weighted_witness :
    (⟨[⟨⟨0, 0, 2⟩, 4, 100, 4 * 100, (0, 0), unknownVendor⟩],
      aggregateMonthly [⟨⟨0, 0, 2⟩, 4, 100, 4 * 100, (0, 0), unknownVendor⟩],
      mkSummary [⟨⟨0, 0, 2⟩, 4, 100, 4 * 100, (0, 0), unknownVendor⟩]⟩ :
        ProcessResult).summary.averageTtmRate =
      (if (((⟨[⟨⟨0, 0, 2⟩, 4, 100, 4 * 100, (0, 0), unknownVendor⟩],
          aggregateMonthly [⟨⟨0, 0, 2⟩, 4, 100, 4 * 100, (0, 0), unknownVendor⟩],
          mkSummary [⟨⟨0, 0, 2⟩, 4, 100, 4 * 100, (0, 0), unknownVendor⟩]⟩ :
            ProcessResult).transactions.map (fun t => t.amount_usd)).sum) ≠ 0
       then (((⟨[⟨⟨0, 0, 2⟩, 4, 100, 4 * 100, (0, 0), unknownVendor⟩],
          aggregateMonthly [⟨⟨0, 0, 2⟩, 4, 100, 4 * 100, (0, 0), unknownVendor⟩],
          mkSummary [⟨⟨0, 0, 2⟩, 4, 100, 4 * 100, (0, 0), unknownVendor⟩]⟩ :
            ProcessResult).transactions.map (fun t => t.amount_jpy)).sum) /
            (((⟨[⟨⟨0, 0, 2⟩, 4, 100, 4 * 100, (0, 0), unknownVendor⟩],
          aggregateMonthly [⟨⟨0, 0, 2⟩, 4, 100, 4 * 100, (0, 0), unknownVendor⟩],
          mkSummary [⟨⟨0, 0, 2⟩, 4, 100, 4 * 100, (0, 0), unknownVendor⟩]⟩ :
            ProcessResult).transactions.map (fun t => t.amount_usd)).sum)
       else 0) :=
  (average_rate_weighted [(2, 100)] [⟨some ⟨0, 0, 2⟩, some 4, none⟩] _ rfl).1

/-- C5 is false on the code: with rates 100 and 200 and amounts 1 and 3,
the code returns `averageTtmRate = 700 / 4 = 175` (the amount-weighted
average), while the unweighted mean of the two resolved rates is 150. -/
theorem average_rate_unweighted_cex :
    (process_csv [(1, 100), (2, 200)]
        [⟨some ⟨0, 0, 1⟩, some 1, none⟩, ⟨some ⟨0, 0, 2⟩, some 3, none⟩]).map
      (fun res => res.summary.averageTtmRate) = .ok 175 ∧
    (process_csv [(1, 100), (2, 200)]
        [⟨some ⟨0, 0, 1⟩, some 1, none⟩, ⟨some ⟨0, 0, 2⟩, some 3, none⟩]).map
      (fun res => ((res.transactions.map (fun t => t.ttm_rate)).sum /
        (res.transactions.length : ℚ))) = .ok 150 ∧
    (175 : ℚ) ≠ 150 := by
  have hrun : process_csv [(1, 100), (2, 200)]
      [⟨some ⟨0, 0, 1⟩, some 1, none⟩, ⟨some ⟨0, 0, 2⟩, some 3, none⟩] =
      .ok ⟨[⟨⟨0, 0, 1⟩, 1, 100, 1 * 100, (0, 0), unknownVendor⟩,
            ⟨⟨0, 0, 2⟩, 3, 200, 3 * 200, (0, 0), unknownVendor⟩],
           aggregateMonthly
             [⟨⟨0, 0, 1⟩, 1, 100, 1 * 100, (0, 0), unknownVendor⟩,
              ⟨⟨0, 0, 2⟩, 3, 200, 3 * 200, (0, 0), unknownVendor⟩],
           mkSummary
             [⟨⟨0, 0, 1⟩, 1, 100, 1 * 100, (0, 0), unknownVendor⟩,
              ⟨⟨0, 0, 2⟩, 3, 200, 3 * 200, (0, 0), unknownVendor⟩]⟩ := rfl
  rw [hrun]
  refine ⟨?_, ?_, by norm_num⟩
  · simp only [Except.map]
    norm_num [mkSummary]
  · simp only [Except.map]
    norm_num

/-- C6 (amended): the per-row loop does not abort at the first offending
row: it records the row's error and continues, so later valid rows are
still processed into the transactions list; the error list is empty
exactly when every row succeeds, and if any error was collected the run
returns only the collected errors. -/
theorem error_collection_spec (table : RateTable) (rows : List Row) :
    ((processRows table rows).2 = [] ↔
      ∀ r ∈ rows, (processRow table r).isOk = true) ∧
    (processRows table rows).1 =
      rows.filterMap (fun r => (processRow table r).toOption) ∧
    ((processRows table rows).2 ≠ [] →
      process_csv table rows = .error (processRows table rows).2) :=
  ⟨processRowsAux_errors_nil table 0 rows, processRowsAux_txns table 0 rows,
    fun h => process_csv_error_of_errors h⟩

theorem error_collection_spec_witness :
    process_csv [] [⟨none, some 1, none⟩] =
      .error (processRows [] [⟨none, some 1, none⟩]).2 :=
  (error_collection_spec [] [⟨none, some 1, none⟩]).2.2 (by decide)

/-- C6 is false on the code: with an invalid first row and a valid second
row, the loop still processes the second row (the transactions list holds
its transaction) before the collected error aborts the run; the batch is
not abandoned at the first offending row. -/
theorem fail_fast_cex :
    (processRows [(1, 140)] [⟨none, some 1, none⟩,
        ⟨some ⟨0, 0, 1⟩, some 2, none⟩]).1 =
      [⟨⟨0, 0, 1⟩, 2, 140, 2 * 140, (0, 0), unknownVendor⟩] ∧
    process_csv [(1, 140)] [⟨none, some 1, none⟩,
        ⟨some ⟨0, 0, 1⟩, some 2, none⟩] =
      .error [(1, .invalidDate)] :=
  ⟨rfl, rfl⟩

/-- C7: for every successful batch, the monthly buckets' `total_usd`
(resp. `total_jpy`) sum to the transactions' `amount_usd`
(resp. `amount_jpy`) sum. -/
theorem monthly_sum_invariant (table : RateTable) (rows : List Row) (res : ProcessResult)
    (h : process_csv table rows = .ok res) :
    ((res.monthly.map (fun m => m.total_usd)).sum =
      (res.transactions.map (fun t => t.amount_usd)).sum) ∧
    ((res.monthly.map (fun m => m.total_jpy)).sum =
      (res.transactions.map (fun t => t.amount_jpy)).sum) := by
  obtain ⟨-, rfl⟩ := process_csv_ok_inv h
  exact ⟨aggregate_sum_usd _, aggregate_sum_jpy _⟩

theorem monthly_sum_invariant_witness :
    ((⟨[⟨⟨0, 0, 1⟩, 2, 100, 2 * 100, (0, 0), unknownVendor⟩],
        aggregateMonthly [⟨⟨0, 0, 1⟩, 2, 100, 2 * 100, (0, 0), unknownVendor⟩],
        mkSummary [⟨⟨0, 0, 1⟩, 2, 100, 2 * 100, (0, 0), unknownVendor⟩]⟩ :
          ProcessResult).monthly.map (fun m => m.total_usd)).sum =
      ((⟨[⟨⟨0, 0, 1⟩, 2, 100, 2 * 100, (0, 0), unknownVendor⟩],
        aggregateMonthly [⟨⟨0, 0, 1⟩, 2, 100, 2 * 100, (0, 0), unknownVendor⟩],
        mkSummary [⟨⟨0, 0, 1⟩, 2, 100, 2 * 100, (0, 0), unknownVendor⟩]⟩ :
          ProcessResult).transactions.map (fun t => t.amount_usd)).sum :=
  (monthly_sum_invariant [(1, 100)] [⟨some ⟨0, 0, 1⟩, some 2, none⟩] _ rfl).1

/-- C8: a batch on which any row fails returns only the structured error
list; no `{transactions, monthly, summary}` payload is ever produced
alongside it. -/
theorem no_partial_output (table : RateTable) (rows : List Row)
    (h : ∃ r ∈ rows, (processRow table r).isOk = false) :
    (∀ res : ProcessResult, process_csv table rows ≠ .ok res) ∧
    process_csv table rows = .error (processRows table rows).2 := by
  have herr : (processRows table rows).2 ≠ [] := by
    intro hnil
    obtain ⟨r, hr, hfalse⟩ := h
    have hok := (processRowsAux_errors_nil table 0 rows).mp hnil r hr
    rw [hok] at hfalse
    exact absurd hfalse (by simp)
  refine ⟨?_, process_csv_error_of_errors herr⟩
  intro res hok
  rw [process_csv_error_of_errors herr] at hok
  exact absurd hok (by simp)

theorem no_partial_output_witness :
    process_csv [] [⟨some ⟨0, 0, 1⟩, some 1, none⟩] =
      .error (processRows [] [⟨some ⟨0, 0, 1⟩, some 1, none⟩]).2 :=
  (no_partial_output [] [⟨some ⟨0, 0, 1⟩, some 1, none⟩] (by decide)).2

/-- C9: the engine is a pure function of the sorted input rows and the
rate-table snapshot: two runs on equal inputs yield identical output. -/
theorem process_csv_deterministic (t1 t2 : RateTable) (r1 r2 : List Row)
    (ht : t1 = t2) (hr : r1 = r2) :
    process_csv t1 r1 = process_csv t2 r2 := by
  rw [ht, hr]

theorem process_csv_deterministic_witness :
    process_csv [(1, 100)] [⟨some ⟨0, 0, 1⟩, some 2, none⟩] =
      process_csv [(1, 100)] [⟨some ⟨0, 0, 1⟩, some 2, none⟩] :=
  process_csv_deterministic [(1, 100)] [(1, 100)]
    [⟨some ⟨0, 0, 1⟩, some 2, none⟩] [⟨some ⟨0, 0, 1⟩, some 2, none⟩] rfl rfl

/-! ## Lemmas about the reconciliation engine -/

theorem settle_not_pending (d x : Movement) :
    isPendingCredit (settle d x) = false := by
  by_cases h : x.direction = .credit ∧ x.exchange_profit = none
  · simp [settle, h, isPendingCredit]
  · rw [settle, if_neg h]
    by_cases h1 : x.direction = .credit
    · have h2 : x.exchange_profit ≠ none := fun hh => h ⟨h1, hh⟩
      simp [isPendingCredit, h2]
    · simp [isPendingCredit, h1]

theorem foldl_queue_inv (ms : List Movement) :
    ∀ s : List Movement × List Movement,
      (∀ m ∈ ms, m.exchange_profit = none) →
      s.2 = s.1.filter isPendingCredit →
      (ms.foldl reconStep s).2 = (ms.foldl reconStep s).1.filter isPendingCredit := by
  induction ms with
  | nil => intro s _ hs; simpa using hs
  | cons m rest ih =>
    intro s hnull hs
    simp only [List.foldl_cons]
    apply ih (reconStep s m)
      (fun x hx => hnull x (List.mem_cons_of_mem m hx))
    cases hdir : m.direction with
    | credit =>
      have hpend : isPendingCredit m = true := by
        simp [isPendingCredit, hdir, hnull m (List.mem_cons_self m rest)]
      simp [reconStep, hdir, List.filter_append, hs, hpend]
    | debit =>
      have hmap : (s.1.map (settle m)).filter isPendingCredit = [] := by
        rw [List.filter_eq_nil_iff]
        intro a ha
        obtain ⟨x, hx, rfl⟩ := List.mem_map.mp ha
        simp [settle_not_pending]
      have hd : isPendingCredit m = false := by
        simp [isPendingCredit, hdir]
      simp [reconStep, hdir, List.filter_append, hmap, hd]

theorem reconcile_append (ms₁ ms₂ : List Movement) :
    reconcile (ms₁ ++ ms₂) = ms₂.foldl reconStep (reconcile ms₁) := by
  simp [reconcile, List.foldl_append]

theorem no_debit_extends (l : List Movement) :
    ∀ s : List Movement × List Movement,
      (∀ m ∈ l, m.direction ≠ .debit) →
      ∃ t, (l.foldl reconStep s).1 = s.1 ++ t := by
  induction l with
  | nil => intro s _; exact ⟨[], by simp⟩
  | cons m rest ih =>
    intro s hnd
    have hdir : m.direction = .credit := by
      cases hm : m.direction
      · rfl
      · exact absurd hm (hnd m (List.mem_cons_self m rest))
    obtain ⟨t, ht⟩ := ih (reconStep s m)
      (fun x hx => hnd x (List.mem_cons_of_mem m hx))
    refine ⟨[m] ++ t, ?_⟩
    simp only [List.foldl_cons, ht]
    simp [reconStep, hdir]

/-- C2 (spec-modelled): on a sorted batch of null-profit movements, a
debit empties the pending-credit queue; the queue before the debit is
exactly the unsettled credits of the output, each of which receives an
ExchangeProfit referencing the debit's date, time and rate with
`profit_jpy = amount_usd * (debit_rate - credit_rate)`; and a credit with
no later debit in the batch remains in the output with null
exchange_profit. -/
theorem reconciliation_spec (ms : List Movement)
    (hnull : ∀ m ∈ ms, m.exchange_profit = none) (_hsorted : SortedBatch ms) :
    (∀ pre d suf, ms = pre ++ d :: suf → d.direction = .debit →
      (reconcile (pre ++ [d])).2 = [] ∧
      (reconcile pre).2 = (reconcile pre).1.filter isPendingCredit ∧
      (reconcile (pre ++ [d])).1 = (reconcile pre).1.map (settle d) ++ [d] ∧
      (∀ c ∈ (reconcile pre).2,
        settle d c = { c with
          exchange_profit := some ⟨d.date, d.time, d.resolved_rate,
            c.amount_usd * (d.resolved_rate - c.resolved_rate)⟩ })) ∧
    (∀ pre c suf, ms = pre ++ c :: suf → c.direction = .credit →
      (∀ m ∈ suf, m.direction ≠ .debit) →
      c ∈ (reconcile ms).1 ∧ c.exchange_profit = none) := by
  constructor
  · intro pre d suf hms hdir
    have hqueue : (reconcile pre).2 = (reconcile pre).1.filter isPendingCredit := by
      apply foldl_queue_inv pre ([], [])
      · intro x hx
        exact hnull x (hms ▸ List.mem_append_left _ hx)
      · rfl
    refine ⟨?_, hqueue, ?_, ?_⟩
    · rw [reconcile_append]
      simp [reconStep, hdir]
    · rw [reconcile_append]
      simp [reconStep, hdir]
    · intro c hc
      rw [hqueue] at hc
      have hpend := List.of_mem_filter hc
      simp only [isPendingCredit, Bool.and_eq_true, beq_iff_eq] at hpend
      unfold settle
      rw [if_pos hpend]
  · intro pre c suf hms hdir hnd
    have hout1 : (reconcile (pre ++ [c])).1 = (reconcile pre).1 ++ [c] := by
      rw [reconcile_append]
      simp [reconStep, hdir]
    have hsplit : ms = (pre ++ [c]) ++ suf := by
      rw [hms]
      simp
    obtain ⟨t, ht⟩ := no_debit_extends suf (reconcile (pre ++ [c])) hnd
    constructor
    · rw [hsplit, reconcile_append, ht, hout1]
      simp
    · exact hnull c (hms ▸ List.mem_append_right _ (List.mem_cons_self c suf))

theorem reconciliation_spec_witness :
    (reconcile ([⟨1, 0, .credit, 100, 140, 14000, none⟩] ++
      [⟨2, 0, .debit, 30, 142, 4260, none⟩])).2 = [] :=
  ((reconciliation_spec
      [⟨1, 0, .credit, 100, 140, 14000, none⟩, ⟨2, 0, .debit, 30, 142, 4260, none⟩]
      (by decide) (by simp [SortedBatch, movLE])).1
    [⟨1, 0, .credit, 100, 140, 14000, none⟩]
    ⟨2, 0, .debit, 30, 142, 4260, none⟩ [] rfl rfl).1

/-- C3 (spec-modelled): a row with both amount fields nonzero, or both
zero, fails validation with AmbiguousTransaction; a row is accepted only
when exactly one of the two amounts is positive; and a batch containing
such an ambiguous row after only valid rows halts with
AmbiguousTransaction. -/
theorem validation_spec :
    (∀ c d : ℚ, ((c ≠ 0 ∧ d ≠ 0) ∨ (c = 0 ∧ d = 0)) →
      validateAmounts c d = .error .ambiguousTransaction) ∧
    (∀ (c d : ℚ) (v : Direction × ℚ), validateAmounts c d = .ok v →
      ((0 < c ∧ ¬ 0 < d) ∨ (0 < d ∧ ¬ 0 < c))) ∧
    (∀ (pre : List RawMov) (r : RawMov) (suf : List RawMov),
      ((r.credit ≠ 0 ∧ r.debit ≠ 0) ∨ (r.credit = 0 ∧ r.debit = 0)) →
      (∀ p ∈ pre, ∃ v, validateAmounts p.credit p.debit = .ok v) →
      normalizeBatch (pre ++ r :: suf) = .error .ambiguousTransaction) := by
  have herr : ∀ c d : ℚ, ((c ≠ 0 ∧ d ≠ 0) ∨ (c = 0 ∧ d = 0)) →
      validateAmounts c d = .error .ambiguousTransaction := by
    intro c d h
    rcases h with ⟨hc, hd⟩ | ⟨hc, hd⟩
    · simp [validateAmounts, hc, hd]
    · subst hc; subst hd
      simp [validateAmounts]
  refine ⟨herr, ?_, ?_⟩
  · intro c d v h
    unfold validateAmounts at h
    by_cases hcd : c ≠ 0 ∧ d ≠ 0
    · rw [if_pos hcd] at h
      exact absurd h (by simp)
    · rw [if_neg hcd] at h
      by_cases hc : 0 < c
      · refine Or.inl ⟨hc, fun hd => ?_⟩
        exact hcd ⟨ne_of_gt hc, ne_of_gt hd⟩
      · rw [if_neg hc] at h
        by_cases hd : 0 < d
        · exact Or.inr ⟨hd, hc⟩
        · rw [if_neg hd] at h
          exact absurd h (by simp)
  · intro pre r suf hr hpre
    induction pre with
    | nil =>
      simp only [List.nil_append, normalizeBatch]
      rw [herr r.credit r.debit hr]
    | cons p pre' ih =>
      obtain ⟨v, hv⟩ := hpre p (List.mem_cons_self p pre')
      have hrest := ih (fun q hq => hpre q (List.mem_cons_of_mem p hq))
      simp only [List.cons_append, normalizeBatch, List.append_eq]
      rw [hv, hrest]

theorem validation_spec_witness :
    validateAmounts 5 3 = .error .ambiguousTransaction :=
  validation_spec.1 5 3 (Or.inl ⟨by norm_num, by norm_num⟩)
